import Mathlib

/-!
# Verification of `resolve_overlaps.py` (katarinagresova/overlaps)

A shallow embedding of the weighted-interval-scheduling resolver in
`src/resolve_overlaps.py`, together with theorems settling the frozen claims
about its specification.

Modelling conventions:
* Python integers are `Int` (they are unbounded, so no wrap-around modelling is
  needed).
* Fallible operations (an out-of-range list index, `int()` on a malformed
  field) are modelled with `Option`: `none` stands for the raised exception.
* Python's stable in-place `list.sort(key=...)` is modelled by
  `List.insertionSort` with the non-strict key comparison, which computes the
  same (stable) result.
* `get_partial` prints the chosen regions and returns `(weight, count)`; the
  printed selection is the observable output, so the model returns
  `(weight, selection)`.
-/

namespace ResolveOverlaps

/-- Source class `Region`: one line of the input file together with
the fields the resolver extracts from it: `rid = parts[0] + parts[2] + parts[6]`,
`start = int(parts[3])`, `finish = int(parts[4])`, `weight = int(parts[5])`. -/
structure Region where
  line : String
  rid : String
  start : Int
  finish : Int
  weight : Int
deriving Repr, DecidableEq

/-- Value of a list of decimal digit characters. -/
def digitsToNat (ds : List Char) : Nat :=
  ds.foldl (fun n c => 10 * n + (c.toNat - 48)) 0

/-- Python's `int()` applied to one field, on the plain decimal strings
(optionally negated) that the format carries; any other string raises
`ValueError` in Python and is `none` here. -/
def pyInt (s : String) : Option Int :=
  match s.data with
  | '-' :: ds =>
    if ds ≠ [] ∧ ds.all Char.isDigit then some (-(digitsToNat ds : Int)) else none
  | ds =>
    if ds ≠ [] ∧ ds.all Char.isDigit then some (digitsToNat ds : Int) else none

/-- Parsing one already-tokenised input line into a `Region`
(source `Region.__init__`): `parts` is the whitespace-split field list of the
line; a missing field or a non-numeric numeric field raises in Python and is
`none` here. -/
def regionOfParts (line : String) (parts : List String) : Option Region :=
  match parts[0]?, parts[2]?, parts[3]?, parts[4]?, parts[5]?, parts[6]? with
  | some p0, some p2, some p3, some p4, some p5, some p6 =>
    match pyInt p3, pyInt p4, pyInt p5 with
    | some st, some fi, some w =>
      some { line := line, rid := p0 ++ p2 ++ p6, start := st, finish := fi, weight := w }
    | _, _, _ => none
  | _, _, _, _, _, _ => none

/-- The group collected for one key by `Resolver.read_input`:
`data` is a `defaultdict(list)` receiving `data[f.rid].append(f)`, so the list
stored under `key` is exactly the input-order sublist of regions whose `rid`
equals `key`. -/
def groupOf (rs : List Region) (key : String) : List Region :=
  rs.filter (fun r => r.rid == key)

/-- Source class `Sequence`: a partial solution of the DP,
holding the accumulated weight, the finish point of its last region and the
chosen regions. -/
structure Sequence where
  weight : Int
  finish : Int
  regs : List Region
deriving Repr, DecidableEq

/-- The empty `Sequence(0, 0, set())` used as `sequences[0]`; it also serves
as the lookup default for table indices that were never assigned. -/
def Sequence0 : Sequence := ⟨0, 0, []⟩

/-- A default region used only for out-of-range list lookups in statements. -/
def Region0 : Region := ⟨"", "", 0, 0, 0⟩

/-- Source method `Sequence.__add__`: extend a sequence with one more region. -/
def seqAdd (s : Sequence) (r : Region) : Sequence :=
  ⟨s.weight + r.weight, r.finish, s.regs ++ [r]⟩

/-- Python's two-argument `max(a, b)` under `Sequence.__gt__` (comparison by
weight): the second argument is returned only when it is strictly greater, so
ties keep the first argument. -/
def maxSeq (a b : Sequence) : Sequence :=
  if b.weight > a.weight then b else a

/-- Key comparison used by `routes.sort(key=attrgetter('finish'))`. -/
def finishLE (a b : Region) : Prop := a.finish ≤ b.finish

instance : DecidableRel finishLE := fun a b => inferInstanceAs (Decidable (a.finish ≤ b.finish))

instance : IsTotal Region finishLE := ⟨fun a b => le_total a.finish b.finish⟩

instance : IsTrans Region finishLE := ⟨fun _ _ _ h h' => le_trans h h'⟩

/-- Key comparison used by `data[rid].sort(key=attrgetter('start'))`. -/
def startLE (a b : Region) : Prop := a.start ≤ b.start

instance : DecidableRel startLE := fun a b => inferInstanceAs (Decidable (a.start ≤ b.start))

instance : IsTotal Region startLE := ⟨fun a b => le_total a.start b.start⟩

instance : IsTrans Region startLE := ⟨fun _ _ _ h h' => le_trans h h'⟩

/-- Stable sort by finish point: `routes.sort(key=attrgetter('finish'))`. -/
def sortByFinish (rs : List Region) : List Region := List.insertionSort finishLE rs

/-- Stable sort by start point: `data[rid].sort(key=attrgetter('start'))`. -/
def sortByStart (rs : List Region) : List Region := List.insertionSort startLE rs

/-- The loop body of CPython's `bisect_left(a, x, lo, hi)`: binary search for
the leftmost insertion point of `x`.  The structural `fuel` argument bounds
the iteration count; `fuel = hi - lo` suffices because each iteration shrinks
`hi - lo` by at least one, exactly as the C loop terminates. -/
def bisectLeftGo (a : List Int) (x : Int) : Nat → Nat → Nat → Nat
  | 0, lo, _ => lo
  | fuel + 1, lo, hi =>
    if lo < hi then
      let mid := (lo + hi) / 2
      if a.getD mid 0 < x then bisectLeftGo a x fuel (mid + 1) hi
      else bisectLeftGo a x fuel lo mid
    else lo

/-- CPython `bisect_left(a, x, lo, hi)`. -/
def bisectLeft (a : List Int) (x : Int) (lo hi : Nat) : Nat :=
  bisectLeftGo a x (hi - lo) lo hi

/-- The initial DP table of `get_partial`:
`sequences[0] = Sequence(0, 0, set())` and
`sequences[1] = Sequence(routes[0].weight, routes[0].finish, (routes[0],))`. -/
def initTbl (r0 : Region) : List Sequence :=
  [Sequence0, ⟨r0.weight, r0.finish, [r0]⟩]

/-- One iteration of the DP loop of `get_partial`
(`for i in range(2, len(routes) + 1)`): with the table holding
`sequences[0..i-1]`, compute
`new_seq = sequences[bisect_left(finish, start[i-1])] + routes[i-1]` and append
`sequences[i] = max(sequences[i-1], new_seq)`.
The `defaultdict` lookup is `getD`; in Python an index that was never assigned
raises (the `Sequence` default factory needs three arguments), which never
happens for regions with `start <= finish`. -/
def dpStep (fins : List Int) (tbl : List Sequence) (r : Region) : List Sequence :=
  let p := bisectLeft fins r.start 0 fins.length
  let newSeq := seqAdd (tbl.getD p Sequence0) r
  tbl ++ [maxSeq (tbl.getD (tbl.length - 1) Sequence0) newSeq]

/-- The full DP table `sequences[0..n]` of `get_partial`, for a block `s` that
is already sorted by finish. -/
def dpTbl (s : List Region) : List Sequence :=
  match s with
  | [] => []
  | r0 :: rest => rest.foldl (dpStep (s.map (fun r => r.finish))) (initTbl r0)

/-- Entry `i` of the DP table (`sequences[i]`), with the defaultdict default
for indices that were never assigned. -/
def dpGet (s : List Region) (i : Nat) : Sequence :=
  (dpTbl s).getD i Sequence0

/-- The predecessor index `bisect_left(finish, start[i - 1])` computed in
iteration `i` of the DP loop. -/
def predIdx (s : List Region) (i : Nat) : Nat :=
  bisectLeft (s.map (fun r => r.finish)) ((s.getD (i - 1) Region0).start) 0
    (s.map (fun r => r.finish)).length

/-- Source method `Resolver.get_partial(routes)`: sort the block by finish, run the DP, and
return the weight of `sequences[len(routes)]` together with the printed
selection `sequences[len(routes)].regs`.  On an empty block the access
`routes[0]` raises in Python, modelled as `none`. -/
def getPartial (routes : List Region) : Option (Int × List Region) :=
  let s := sortByFinish routes
  if s.isEmpty then none
  else
    let tbl := dpTbl s
    let best := tbl.getD (tbl.length - 1) Sequence0
    some (best.weight, best.regs)

/-- The block-splitting loop of `Resolver.resolve`: `cur` is the pending list
`sequences`, `mostFar` the running `most_far`.  A new region whose start
exceeds `most_far` closes the pending block; the final flush always emits the
pending list (even when it is empty, which only happens for an empty group). -/
def blockSplitAux (cur : List Region) (mostFar : Int) : List Region → List (List Region)
  | [] => [cur]
  | r :: rs =>
    if cur.length > 0 ∧ r.start > mostFar then
      cur :: blockSplitAux [r] (max r.finish mostFar) rs
    else
      blockSplitAux (cur ++ [r]) (max r.finish mostFar) rs

/-- The blocks into which `Resolver.resolve` cuts one group
(`sequences = list(); most_far = 0` before the loop). -/
def blockSplit (g : List Region) : List (List Region) :=
  blockSplitAux [] 0 g

/-- One `top_weight += ...` step of `Resolver.resolve`: solve the next block
with `get_partial`, add its weight to the running total and append its printed
selection; a failure (empty block) propagates. -/
def accumBlock (acc : Option (Int × List Region)) (bl : List Region) :
    Option (Int × List Region) :=
  match acc, getPartial bl with
  | some (w, sel), some (wb, selb) => some (w + wb, sel ++ selb)
  | _, _ => none

/-- Per-group accumulation of `Resolver.resolve`: each block is solved by
`get_partial`, weights are summed into `top_weight` and the printed selections
concatenate in block order. -/
def resolveSortedGroup (g : List Region) : Option (Int × List Region) :=
  (blockSplit g).foldl accumBlock (some (0, []))

/-- One group of `Resolver.resolve`: the group is sorted by start first unless
the `-s` flag promised it already is. -/
def resolveGroup (isSorted : Bool) (g : List Region) : Option (Int × List Region) :=
  resolveSortedGroup (if isSorted then g else sortByStart g)

/-! ## Specification-side definitions (for comparison with the claims) -/

/-- Total weight of a list of regions. -/
def sumWeights (l : List Region) : Int := (l.map (fun r => r.weight)).sum

/-- The claims' non-overlap relation: `a.finish <= b.start or b.finish <= a.start`. -/
def compatLE (a b : Region) : Prop := a.finish ≤ b.start ∨ b.finish ≤ a.start

instance : DecidableRel compatLE := fun a b =>
  inferInstanceAs (Decidable (a.finish ≤ b.start ∨ b.finish ≤ a.start))

/-- Strict non-overlap: touching regions (`a.finish = b.start`) count as
overlapping.  This is the relation the code's `bisect_left` actually enforces. -/
def compatLT (a b : Region) : Prop := a.finish < b.start ∨ b.finish < a.start

instance : DecidableRel compatLT := fun a b =>
  inferInstanceAs (Decidable (a.finish < b.start ∨ b.finish < a.start))

/-- Modelled from the spec: brute-force maximum, over all subsets of the block
that are pairwise non-overlapping in the claims' sense
(`a.finish <= b.start or b.finish <= a.start`), of the sum of the subset's
weights (the empty subset contributes `0`). -/
def bestCompatLEWeight (l : List Region) : Int :=
  ((l.sublists.filter (fun t => decide (t.Pairwise compatLE))).map sumWeights).foldl max 0

/-- Brute-force maximum over all pairwise strictly non-overlapping subsets. -/
def bestCompatLTWeight (l : List Region) : Int :=
  ((l.sublists.filter (fun t => decide (t.Pairwise compatLT))).map sumWeights).foldl max 0

/-- Concatenation of two partial solutions of strictly separated sub-blocks
(proof-side helper, not part of the source). -/
def seqAppend (c x : Sequence) : Sequence :=
  ⟨c.weight + x.weight, x.finish, c.regs ++ x.regs⟩

/-! ## Concrete regions used in counterexamples and witnesses -/

/-- A region `(start, finish, weight)` with empty payload, for concrete tests. -/
def mkRegion (s f w : Int) : Region := ⟨"", "", s, f, w⟩

/-! ## Basic structural lemmas -/

theorem sortByFinish_sorted (rs : List Region) : (sortByFinish rs).Sorted finishLE :=
  List.sorted_insertionSort finishLE rs

theorem sortByFinish_perm (rs : List Region) : List.Perm (sortByFinish rs) rs :=
  List.perm_insertionSort finishLE rs

theorem sortByStart_sorted (rs : List Region) : (sortByStart rs).Sorted startLE :=
  List.sorted_insertionSort startLE rs

theorem sortByStart_perm (rs : List Region) : List.Perm (sortByStart rs) rs :=
  List.perm_insertionSort startLE rs

/-- Every block emitted by the splitting loop is nonempty, as soon as the
pending list is nonempty (which holds after the first region is consumed). -/
theorem blockSplitAux_ne_nil (rem : List Region) :
    ∀ cur mostFar, cur ≠ [] → ∀ bl ∈ blockSplitAux cur mostFar rem, bl ≠ [] := by
  induction rem with
  | nil =>
    intro cur mostFar hcur bl hbl
    simp only [blockSplitAux, List.mem_singleton] at hbl
    exact hbl ▸ hcur
  | cons r rs ih =>
    intro cur mostFar hcur bl hbl
    simp only [blockSplitAux] at hbl
    by_cases h : cur.length > 0 ∧ r.start > mostFar
    · rw [if_pos h] at hbl
      rcases List.mem_cons.1 hbl with h1 | h2
      · exact h1 ▸ hcur
      · exact ih [r] (max r.finish mostFar) (by simp) bl h2
    · rw [if_neg h] at hbl
      exact ih (cur ++ [r]) (max r.finish mostFar) (by simp) bl hbl

/-- For a nonempty group, no block handed to the scheduling engine is empty. -/
theorem blockSplit_ne_nil (g : List Region) (hg : g ≠ []) :
    ∀ bl ∈ blockSplit g, bl ≠ [] := by
  match g with
  | [] => exact absurd rfl hg
  | r :: rs =>
    intro bl hbl
    simp only [blockSplit, blockSplitAux, gt_iff_lt, List.length_nil, if_neg
      (by simp : ¬((0:Nat) < 0 ∧ 0 < r.start)), List.nil_append] at hbl
    exact blockSplitAux_ne_nil rs [r] (max r.finish 0) (by simp) bl hbl

/-- The blocks of a group concatenate back to the group. -/
theorem blockSplitAux_join (rem : List Region) :
    ∀ cur mostFar, (blockSplitAux cur mostFar rem).flatten = cur ++ rem := by
  induction rem with
  | nil => intro cur mostFar; simp [blockSplitAux]
  | cons r rs ih =>
    intro cur mostFar
    simp only [blockSplitAux]
    by_cases h : cur.length > 0 ∧ r.start > mostFar
    · rw [if_pos h]
      simp [List.flatten, ih]
    · rw [if_neg h]
      simp [ih]

theorem blockSplit_join (g : List Region) : (blockSplit g).flatten = g := by
  simpa using blockSplitAux_join g [] 0

/-! ## Claims C4, C8, C9, C10 and the counterexamples of C1, C2, C3, C5 -/

/-- C4, counterexample: on the single-interval block `(1, 1, w = -5)` the
engine returns weight `-5` and selects the interval; it does not return
weight `0` with an empty selection as the claim states.  The DP loop
`for i in range(2, ...)` never runs for `n = 1`, so the exclusion option is
never compared. -/
theorem c4_counterexample :
    getPartial [mkRegion 1 1 (-5)] = some (-5, [mkRegion 1 1 (-5)]) ∧
      getPartial [mkRegion 1 1 (-5)] ≠ some (0, []) := by
  constructor
  · decide
  · decide

/-- C4, amended: for every single-interval block the engine returns that
interval's weight and selects it, even when the weight is negative. -/
theorem c4_amended (r : Region) : getPartial [r] = some (r.weight, [r]) := rfl

/-- C4, witness: the amended statement at the single interval `(1, 1, -7)`. -/
theorem c4_witness :
    getPartial [mkRegion 1 1 (-7)] = some ((mkRegion 1 1 (-7)).weight,
      [mkRegion 1 1 (-7)]) :=
  c4_amended (mkRegion 1 1 (-7))

/-- C8, counterexample: invoked on an empty block the engine does not return
weight `0` with an empty selection; the access `routes[0]` fails. -/
theorem c8_counterexample : getPartial ([] : List Region) ≠ some (0, []) := by
  decide

/-- C8, amended: the engine has no zero-length fast path — on an empty block
the `routes[0]` access fails (modelled `none`) — but it is never invoked on an
empty block, because for a nonempty group every block emitted by the
splitting loop is nonempty. -/
theorem c8_amended :
    getPartial ([] : List Region) = none ∧
      ∀ g : List Region, g ≠ [] → [] ∉ blockSplit g :=
  ⟨rfl, fun g hg h => blockSplit_ne_nil g hg [] h rfl⟩

/-- C8, witness: the amended statement at the concrete group `[(1, 2, 3)]`. -/
theorem c8_witness :
    getPartial ([] : List Region) = none ∧ [] ∉ blockSplit [mkRegion 1 2 3] :=
  ⟨c8_amended.1, c8_amended.2 [mkRegion 1 2 3] (by decide)⟩

/-- C9, counterexample: on the record with fields
`chrA y typeB 10 20 30 +`, the interval's finish is `20` — the value at
1-indexed position 5 — and not the value `30` at 1-indexed position 6 claimed
to be its source. -/
theorem c9_counterexample :
    ¬ ((regionOfParts "x" ["chrA", "y", "typeB", "10", "20", "30", "+"]).map
        (fun r => r.finish)
      = pyInt (["chrA", "y", "typeB", "10", "20", "30", "+"].getD 5 "")) := by
  decide

/-- C9, amended: the interval is built from 1-indexed positional fields
1, 3, 4, 5, 6, 7: the group key concatenates the sequence-id (1), feature-type
(3) and strand (7) tokens, `start` is the integer at position 4, `finish` the
integer at position 5 and `weight` the integer at position 6. -/
theorem c9_amended (line : String) (ps : List String) (r : Region)
    (h : regionOfParts line ps = some r) :
    r.rid = ps.getD 0 "" ++ ps.getD 2 "" ++ ps.getD 6 "" ∧
      pyInt (ps.getD 3 "") = some r.start ∧
      pyInt (ps.getD 4 "") = some r.finish ∧
      pyInt (ps.getD 5 "") = some r.weight := by
  unfold regionOfParts at h
  split at h
  case _ p0 p2 p3 p4 p5 p6 h0 h2 h3 h4 h5 h6 =>
    split at h
    case _ st fi w hst hfi hw =>
      cases h
      refine ⟨?_, ?_, ?_, ?_⟩ <;>
        simp [List.getD_eq_getElem?_getD, h0, h2, h3, h4, h5, h6, hst, hfi, hw]
    case _ => exact absurd h (by simp)
  case _ => exact absurd h (by simp)

/-- C9, witness: the amended statement at the concrete record
`chrA y typeB 10 20 30 +`. -/
theorem c9_witness :
    (⟨"x", "chrAtypeB+", 10, 20, 30⟩ : Region).rid
        = ["chrA", "y", "typeB", "10", "20", "30", "+"].getD 0 ""
          ++ ["chrA", "y", "typeB", "10", "20", "30", "+"].getD 2 ""
          ++ ["chrA", "y", "typeB", "10", "20", "30", "+"].getD 6 "" ∧
      pyInt (["chrA", "y", "typeB", "10", "20", "30", "+"].getD 3 "") = some 10 ∧
      pyInt (["chrA", "y", "typeB", "10", "20", "30", "+"].getD 4 "") = some 20 ∧
      pyInt (["chrA", "y", "typeB", "10", "20", "30", "+"].getD 5 "") = some 30 :=
  c9_amended "x" ["chrA", "y", "typeB", "10", "20", "30", "+"]
    ⟨"x", "chrAtypeB+", 10, 20, 30⟩ (by decide)

/-- C10: the records `chr1 y geneA 1 2 3 +` and `chr1gene y A 4 5 6 +` have
different (sequence id, feature type, strand) triples but the same
separator-free group key `chr1geneA+`, and the grouping of `read_input`
places both in the same group. -/
theorem c10_theorem :
    regionOfParts "l1" ["chr1", "y", "geneA", "1", "2", "3", "+"]
        = some ⟨"l1", "chr1geneA+", 1, 2, 3⟩ ∧
      regionOfParts "l2" ["chr1gene", "y", "A", "4", "5", "6", "+"]
        = some ⟨"l2", "chr1geneA+", 4, 5, 6⟩ ∧
      (["chr1", "y", "geneA", "1", "2", "3", "+"].getD 0 "",
        ["chr1", "y", "geneA", "1", "2", "3", "+"].getD 2 "",
        ["chr1", "y", "geneA", "1", "2", "3", "+"].getD 6 "")
        ≠ (["chr1gene", "y", "A", "4", "5", "6", "+"].getD 0 "",
            ["chr1gene", "y", "A", "4", "5", "6", "+"].getD 2 "",
            ["chr1gene", "y", "A", "4", "5", "6", "+"].getD 6 "") ∧
      (⟨"l1", "chr1geneA+", 1, 2, 3⟩ : Region).rid
        = (⟨"l2", "chr1geneA+", 4, 5, 6⟩ : Region).rid ∧
      groupOf [⟨"l1", "chr1geneA+", 1, 2, 3⟩, ⟨"l2", "chr1geneA+", 4, 5, 6⟩]
          (⟨"l1", "chr1geneA+", 1, 2, 3⟩ : Region).rid
        = [⟨"l1", "chr1geneA+", 1, 2, 3⟩, ⟨"l2", "chr1geneA+", 4, 5, 6⟩] := by
  refine ⟨by decide, by decide, by decide, by decide, by decide⟩

/-- C1, counterexample: on the block `[(1, 2, 5), (2, 3, 5)]` the engine
returns weight `5`, while the maximum over subsets that are pairwise
non-overlapping in the claim's sense (`a.finish <= b.start` counts as
non-overlapping, so the two touching intervals may be combined) is `10`. -/
theorem c1_counterexample :
    (getPartial [mkRegion 1 2 5, mkRegion 2 3 5]).map Prod.fst = some 5 ∧
      bestCompatLEWeight [mkRegion 1 2 5, mkRegion 2 3 5] = 10 := by
  constructor
  · decide
  · decide

/-- C2, counterexample: with the `-s` flag asserting sortedness for the
unsorted group `[(1,5,1), (50,60,1), (2,100,10)]`, the resolver selects
`(1,5)` and `(2,100)`, which overlap. -/
theorem c2_counterexample :
    resolveGroup true [mkRegion 1 5 1, mkRegion 50 60 1, mkRegion 2 100 10]
        = some (11, [mkRegion 1 5 1, mkRegion 2 100 10]) ∧
      ¬ compatLE (mkRegion 1 5 1) (mkRegion 2 100 10) := by
  constructor
  · decide
  · decide

/-- C3, counterexample: on the start-sorted group
`[(1, 2, 5), (10, 11, -3)]` the blockwise run returns total weight `2` and
selects both intervals while the single-block run returns weight `5` and
selects only the first; with the weight `-3` replaced by `0` the two runs
agree on weight `5` but still select different interval sets. -/
theorem c3_counterexample :
    resolveSortedGroup [mkRegion 1 2 5, mkRegion 10 11 (-3)]
        = some (2, [mkRegion 1 2 5, mkRegion 10 11 (-3)]) ∧
      getPartial [mkRegion 1 2 5, mkRegion 10 11 (-3)]
        = some (5, [mkRegion 1 2 5]) ∧
      resolveSortedGroup [mkRegion 1 2 5, mkRegion 10 11 0]
        = some (5, [mkRegion 1 2 5, mkRegion 10 11 0]) ∧
      getPartial [mkRegion 1 2 5, mkRegion 10 11 0]
        = some (5, [mkRegion 1 2 5]) := by
  refine ⟨by decide, by decide, by decide, by decide⟩

/-! ## Counting in sorted integer lists and the `bisect_left` characterisation -/

/-- If a predicate holds exactly on the first `m` positions of a list, its
count is `m`. -/
theorem countP_eq_of_split (p : Int → Bool) :
    ∀ (l : List Int) (m : Nat), m ≤ l.length →
      (∀ j, j < m → p (l.getD j 0) = true) →
      (∀ j, m ≤ j → j < l.length → p (l.getD j 0) = false) →
      l.countP p = m := by
  intro l
  induction l with
  | nil =>
    intro m hm _ _
    have : m = 0 := by simpa using hm
    simp [this]
  | cons a t ih =>
    intro m hm h1 h2
    cases m with
    | zero =>
      rw [List.countP_eq_zero.2]
      intro b hb
      obtain ⟨n, hn, rfl⟩ := List.mem_iff_getElem.1 hb
      have hfalse := h2 n (Nat.zero_le n) hn
      rw [List.getD_eq_getElem _ _ hn] at hfalse
      simp [hfalse]
    | succ m =>
      have hpa : p a = true := by
        have h0 := h1 0 (Nat.succ_pos m)
        rwa [List.getD_cons_zero] at h0
      rw [List.countP_cons_of_pos _ _ hpa]
      have hrec := ih m (by
          have : m + 1 ≤ t.length + 1 := by simpa using hm
          omega)
        (fun j hj => by
          have hj' := h1 (j + 1) (by omega)
          rwa [List.getD_cons_succ] at hj')
        (fun j hj1 hj2 => by
          have hj' := h2 (j + 1) (by omega) (by simpa using Nat.succ_lt_succ hj2)
          rwa [List.getD_cons_succ] at hj')
      omega

/-- Entries of a `≤`-sorted list are monotone in the index. -/
theorem sorted_getD_mono {l : List Int} (hs : l.Sorted (· ≤ ·)) {i j : Nat}
    (hij : i ≤ j) (hj : j < l.length) : l.getD i 0 ≤ l.getD j 0 := by
  have hi : i < l.length := by omega
  rw [List.getD_eq_getElem _ _ hi, List.getD_eq_getElem _ _ hj]
  rcases eq_or_lt_of_le hij with rfl | h
  · exact le_refl _
  · exact List.pairwise_iff_getElem.1 hs i j hi hj h

/-- In a `≤`-sorted list, position `j` holds a value `< x` exactly when `j` is
below the count of values `< x`. -/
theorem sorted_lt_countP_iff {l : List Int} (hs : l.Sorted (· ≤ ·)) (x : Int) :
    ∀ j, j < l.length → (l.getD j 0 < x ↔ j < l.countP (fun v => decide (v < x))) := by
  induction l with
  | nil => simp
  | cons a t ih =>
    have hst : t.Sorted (· ≤ ·) := hs.of_cons
    intro j hj
    by_cases ha : a < x
    · rw [List.countP_cons_of_pos _ _ (by simpa using ha)]
      cases j with
      | zero => simpa using ha
      | succ j =>
        rw [List.getD_cons_succ]
        have hjt : j < t.length := by simpa using hj
        rw [ih hst j hjt]
        omega
    · have hc : (a :: t).countP (fun v => decide (v < x)) = 0 := by
        rw [List.countP_eq_zero]
        intro b hb
        rcases List.mem_cons.1 hb with rfl | hbt
        · simpa using ha
        · have hab := List.rel_of_sorted_cons hs b hbt
          have hnb : ¬ b < x := fun hbx => ha (lt_of_le_of_lt hab hbx)
          simpa using hnb
      rw [hc]
      simp only [Nat.not_lt_zero, iff_false]
      cases j with
      | zero => simpa using ha
      | succ j =>
        rw [List.getD_cons_succ]
        have hjt : j < t.length := by simpa using hj
        have hmem : t.getD j 0 ∈ t := by
          rw [List.getD_eq_getElem _ _ hjt]
          exact List.getElem_mem hjt
        have hab := List.rel_of_sorted_cons hs _ hmem
        exact fun hjx => ha (lt_of_le_of_lt hab hjx)

/-- Positions below the count of values `< x` hold values `< x`. -/
theorem sorted_countP_lt_elem {l : List Int} (hs : l.Sorted (· ≤ ·)) {x : Int}
    {j : Nat} (hj : j < l.countP (fun v => decide (v < x))) : l.getD j 0 < x := by
  have hjl : j < l.length := lt_of_lt_of_le hj (List.countP_le_length _)
  exact (sorted_lt_countP_iff hs x j hjl).2 hj

/-- A position holding a value `≥ x` bounds the count of values `< x`. -/
theorem sorted_countP_le_of_ge {l : List Int} (hs : l.Sorted (· ≤ ·)) {x : Int}
    {j : Nat} (hjl : j < l.length) (hx : x ≤ l.getD j 0) :
    l.countP (fun v => decide (v < x)) ≤ j := by
  by_contra hcon
  push_neg at hcon
  exact absurd ((sorted_lt_countP_iff hs x j hjl).2 hcon) (not_lt.2 hx)

/-- The boundary count equals `lo` once the invariant brackets it. -/
theorem countP_eq_lo {l : List Int} {x : Int} {lo : Nat} (hlen : lo ≤ l.length)
    (h1 : ∀ j, j < lo → l.getD j 0 < x)
    (h2 : ∀ j, lo ≤ j → j < l.length → ¬ l.getD j 0 < x) :
    l.countP (fun v => decide (v < x)) = lo :=
  countP_eq_of_split _ l lo hlen (fun j hj => decide_eq_true (h1 j hj))
    (fun j hj1 hj2 => decide_eq_false (h2 j hj1 hj2))

/-- The binary-search loop of `bisect_left` computes the number of entries
strictly below the probe, on a sorted array. -/
theorem bisectLeftGo_eq_countP {l : List Int} (hs : l.Sorted (· ≤ ·)) (x : Int) :
    ∀ (fuel lo hi : Nat), hi ≤ l.length → lo ≤ hi → hi - lo ≤ fuel →
      (∀ j, j < lo → l.getD j 0 < x) →
      (∀ j, hi ≤ j → j < l.length → ¬ l.getD j 0 < x) →
      bisectLeftGo l x fuel lo hi = l.countP (fun v => decide (v < x)) := by
  intro fuel
  induction fuel with
  | zero =>
    intro lo hi hhi hlo hfuel h1 h2
    have heq : lo = hi := by omega
    subst heq
    simp only [bisectLeftGo]
    exact (countP_eq_lo (by omega) h1 (fun j hj1 hj2 => h2 j hj1 hj2)).symm
  | succ fuel ih =>
    intro lo hi hhi hlo hfuel h1 h2
    simp only [bisectLeftGo]
    by_cases hlh : lo < hi
    · rw [if_pos hlh]
      have hmidlo : lo ≤ (lo + hi) / 2 := by omega
      have hmidhi : (lo + hi) / 2 < hi := by omega
      by_cases hm : l.getD ((lo + hi) / 2) 0 < x
      · rw [if_pos hm]
        refine ih ((lo + hi) / 2 + 1) hi hhi (by omega) (by omega) ?_ h2
        intro j hj
        exact lt_of_le_of_lt (sorted_getD_mono hs (by omega) (by omega)) hm
      · rw [if_neg hm]
        refine ih lo ((lo + hi) / 2) (by omega) (by omega) (by omega) h1 ?_
        intro j hj1 hj2 hjx
        exact hm (lt_of_le_of_lt (sorted_getD_mono hs hj1 hj2) hjx)
    · rw [if_neg hlh]
      have heq : lo = hi := by omega
      subst heq
      exact (countP_eq_lo (by omega) h1 (fun j hj1 hj2 => h2 j hj1 hj2)).symm

/-- Over the full range of a sorted array, `bisect_left(a, x)` returns the
number of entries strictly less than `x`. -/
theorem bisectLeft_eq_countP {l : List Int} (hs : l.Sorted (· ≤ ·)) (x : Int) :
    bisectLeft l x 0 l.length = l.countP (fun v => decide (v < x)) :=
  bisectLeftGo_eq_countP hs x (l.length - 0) 0 l.length (le_refl _) (Nat.zero_le _)
    (le_refl _) (fun j hj => absurd hj (Nat.not_lt_zero j))
    (fun _j hj1 hj2 => absurd hj2 (not_lt.2 hj1))

/-- The finish array extracted from a finish-sorted block is `≤`-sorted. -/
theorem finishes_sorted {s : List Region} (hs : s.Sorted finishLE) :
    (s.map (fun r => r.finish)).Sorted (· ≤ ·) :=
  List.Pairwise.map _ (fun _ _ h => h) hs

/-! ## Structure of the DP table -/

theorem getD_concat_length (l : List Sequence) (x d : Sequence) :
    (l ++ [x]).getD l.length d = x := by
  rw [List.getD_eq_getElem _ _ (by simp)]
  simp

theorem getD_mem {s : List Region} {j : Nat} (hj : j < s.length) :
    s.getD j Region0 ∈ s := by
  rw [List.getD_eq_getElem _ _ hj]
  exact List.getElem_mem hj

/-- Entry `j` of the finish array is the finish of region `j`. -/
theorem fins_getD {s : List Region} {j : Nat} (hj : j < s.length) :
    (s.map (fun r => r.finish)).getD j 0 = (s.getD j Region0).finish := by
  rw [List.getD_eq_getElem _ _ (by simpa using hj), List.getD_eq_getElem _ _ hj,
    List.getElem_map]

/-- The DP loop only appends to the table. -/
theorem dpFold_eq_append (fins : List Int) :
    ∀ (rs : List Region) (tbl : List Sequence),
      ∃ ext, rs.foldl (dpStep fins) tbl = tbl ++ ext := by
  intro rs
  induction rs with
  | nil => exact fun tbl => ⟨[], by simp⟩
  | cons r rs ih =>
    intro tbl
    obtain ⟨ext, hext⟩ := ih (dpStep fins tbl r)
    refine ⟨[maxSeq (tbl.getD (tbl.length - 1) Sequence0)
      (seqAdd (tbl.getD (bisectLeft fins r.start 0 fins.length) Sequence0) r)] ++ ext, ?_⟩
    rw [List.foldl_cons, hext]
    simp [dpStep]

theorem dpFold_length (fins : List Int) :
    ∀ (rs : List Region) (tbl : List Sequence),
      (rs.foldl (dpStep fins) tbl).length = tbl.length + rs.length := by
  intro rs
  induction rs with
  | nil => simp
  | cons r rs ih =>
    intro tbl
    rw [List.foldl_cons, ih]
    simp [dpStep]
    omega

/-- Table entries already present are unchanged by further DP iterations. -/
theorem dpFold_getD_stable (fins : List Int) (rs : List Region)
    (tbl : List Sequence) {j : Nat} (hj : j < tbl.length) :
    (rs.foldl (dpStep fins) tbl).getD j Sequence0 = tbl.getD j Sequence0 := by
  obtain ⟨ext, hext⟩ := dpFold_eq_append fins rs tbl
  rw [hext, List.getD_append _ _ _ _ hj]

theorem dpTbl_length {s : List Region} (hne : s ≠ []) :
    (dpTbl s).length = s.length + 1 := by
  match s with
  | [] => exact absurd rfl hne
  | r0 :: rest =>
    show (rest.foldl (dpStep _) (initTbl r0)).length = rest.length + 1 + 1
    rw [dpFold_length]
    simp [initTbl]
    omega

theorem dpGet_zero (s : List Region) : dpGet s 0 = Sequence0 := by
  match s with
  | [] => rfl
  | r0 :: rest =>
    show (rest.foldl (dpStep _) (initTbl r0)).getD 0 Sequence0 = Sequence0
    rw [dpFold_getD_stable _ _ _ (by simp [initTbl])]
    rfl

theorem dpGet_one {s : List Region} {r0 : Region} {rest : List Region}
    (hcons : s = r0 :: rest) : dpGet s 1 = ⟨r0.weight, r0.finish, [r0]⟩ := by
  subst hcons
  show (rest.foldl (dpStep _) (initTbl r0)).getD 1 Sequence0 = _
  rw [dpFold_getD_stable _ _ _ (by simp [initTbl])]
  rfl

theorem dpGet_oob {s : List Region} {i : Nat} (hi : s.length + 1 ≤ i) :
    dpGet s i = Sequence0 := by
  match s with
  | [] =>
    show (List.getD [] i Sequence0) = Sequence0
    simp
  | r0 :: rest =>
    refine List.getD_eq_default _ _ ?_
    rw [dpTbl_length (by simp)]
    simpa using hi

/-- The predecessor index at step `i` never exceeds `i - 1`: regions with
`start <= finish` have their own finish at or after their start, so the
binary search stops at or before position `i - 1`. -/
theorem predIdx_le {s : List Region} (hs : s.Sorted finishLE)
    (hsf : ∀ r ∈ s, r.start ≤ r.finish) {i : Nat} (h2 : 2 ≤ i)
    (hi : i ≤ s.length) : predIdx s i ≤ i - 1 := by
  have hfins : (s.map (fun r => r.finish)).Sorted (· ≤ ·) := finishes_sorted hs
  have hi1 : i - 1 < s.length := by omega
  unfold predIdx
  rw [bisectLeft_eq_countP hfins]
  refine sorted_countP_le_of_ge hfins (by simpa using hi1) ?_
  rw [fins_getD hi1]
  exact hsf _ (getD_mem hi1)

/-- The defining recurrence of the table:
`sequences[i] = max(sequences[i-1], sequences[p(i)] + routes[i-1])`
for `2 <= i <= n`. -/
theorem dpGet_rec {s : List Region} (hs : s.Sorted finishLE)
    (hsf : ∀ r ∈ s, r.start ≤ r.finish) {i : Nat} (h2 : 2 ≤ i)
    (hi : i ≤ s.length) :
    dpGet s i = maxSeq (dpGet s (i - 1))
      (seqAdd (dpGet s (predIdx s i)) (s.getD (i - 1) Region0)) := by
  have hple := predIdx_le hs hsf h2 hi
  obtain ⟨r0, rest, rfl⟩ : ∃ r0 rest, s = r0 :: rest := by
    cases s with
    | nil => simp at hi; omega
    | cons a t => exact ⟨a, t, rfl⟩
  set fins := (r0 :: rest).map (fun r => r.finish) with hfins
  set k := i - 2 with hk
  have hkrest : k < rest.length := by
    simp only [List.length_cons] at hi
    omega
  have hik : i = k + 2 := by omega
  have hreg : (r0 :: rest).getD (i - 1) Region0 = rest.getD k Region0 := by
    rw [hik]
    exact List.getD_cons_succ
  have hregElem : rest.getD k Region0 = rest[k] :=
    List.getD_eq_getElem _ _ hkrest
  have hsplit : dpTbl (r0 :: rest)
      = (rest.drop (k + 1)).foldl (dpStep fins)
          (dpStep fins ((rest.take k).foldl (dpStep fins) (initTbl r0)) rest[k]) := by
    show rest.foldl (dpStep fins) (initTbl r0) = _
    conv_lhs => rw [← List.take_append_drop k rest, List.drop_eq_getElem_cons hkrest]
    rw [List.foldl_append, List.foldl_cons]
  set tblk := (rest.take k).foldl (dpStep fins) (initTbl r0) with htblk
  have htblklen : tblk.length = k + 2 := by
    rw [htblk, dpFold_length]
    simp [initTbl, List.length_take]
    omega
  have hstep : dpStep fins tblk rest[k]
      = tblk ++ [maxSeq (tblk.getD (tblk.length - 1) Sequence0)
          (seqAdd (tblk.getD (bisectLeft fins rest[k].start 0 fins.length) Sequence0)
            rest[k])] := by
    simp [dpStep]
  have hpred : predIdx (r0 :: rest) i
      = bisectLeft fins rest[k].start 0 fins.length := by
    unfold predIdx
    rw [hreg, hregElem]
  have hsteplen : (dpStep fins tblk rest[k]).length = k + 3 := by
    rw [hstep]
    simp only [List.length_append, List.length_singleton, htblklen]
  have hgeti : dpGet (r0 :: rest) i
      = maxSeq (tblk.getD (tblk.length - 1) Sequence0)
        (seqAdd (tblk.getD (bisectLeft fins rest[k].start 0 fins.length) Sequence0)
          rest[k]) := by
    show (dpTbl (r0 :: rest)).getD i Sequence0 = _
    rw [hsplit, dpFold_getD_stable _ _ _ (by rw [hsteplen]; omega)]
    rw [hstep, hik, ← htblklen, getD_concat_length]
  have hgetprev : dpGet (r0 :: rest) (i - 1) = tblk.getD (k + 1) Sequence0 := by
    show (dpTbl (r0 :: rest)).getD (i - 1) Sequence0 = _
    rw [hsplit, dpFold_getD_stable _ _ _ (by rw [hsteplen]; omega),
      hstep, List.getD_append _ _ _ _ (by omega)]
    congr 1
    omega
  have hgetp : dpGet (r0 :: rest) (predIdx (r0 :: rest) i)
      = tblk.getD (predIdx (r0 :: rest) i) Sequence0 := by
    show (dpTbl (r0 :: rest)).getD _ Sequence0 = _
    rw [hsplit, dpFold_getD_stable _ _ _ (by rw [hsteplen]; omega),
      hstep, List.getD_append _ _ _ _ (by omega)]
  rw [hgeti, hgetprev, hgetp, hreg, hregElem, hpred, htblklen]
  norm_num

/-! ## Invariants of every `Sequence` built by the DP -/

theorem take_sublist_take {α : Type} (l : List α) {i j : Nat} (hij : i ≤ j) :
    (l.take i).Sublist (l.take j) := by
  have h1 : l.take i = (l.take j).take i := by
    rw [List.take_take, Nat.min_eq_left hij]
  rw [h1]
  exact List.take_sublist _ _

/-- The three invariants of a `Sequence` stored at index `j` of the DP table:
its regions are a sublist of the first `j` regions of the block, they are
pairwise strictly non-overlapping, and its weight is their total weight. -/
def SeqInv (s : List Region) (j : Nat) (q : Sequence) : Prop :=
  q.regs.Sublist (s.take j) ∧ q.regs.Pairwise compatLT ∧ q.weight = sumWeights q.regs

theorem seqInv_default (s : List Region) (j : Nat) : SeqInv s j Sequence0 :=
  ⟨List.nil_sublist _, List.Pairwise.nil, by simp [Sequence0, sumWeights]⟩

/-- Invariant `SeqInv` holds at every index (out-of-range lookups default to the empty
sequence, for which it is trivial). -/
def TblInv (s : List Region) (tbl : List Sequence) : Prop :=
  ∀ j, SeqInv s j (tbl.getD j Sequence0)

/-- Elements of the first `p` positions, where `p` counts the finishes below
`x`, all finish below `x`. -/
theorem mem_take_countP_lt {s : List Region} (hs : s.Sorted finishLE) {x : Int}
    {a : Region}
    (ha : a ∈ s.take ((s.map (fun r => r.finish)).countP (fun v => decide (v < x)))) :
    a.finish < x := by
  have hfins := finishes_sorted hs
  obtain ⟨jj, hjj, rfl⟩ := List.mem_iff_getElem.1 ha
  have hjlt : jj < (s.map (fun r => r.finish)).countP (fun v => decide (v < x)) := by
    simp only [List.length_take] at hjj
    omega
  have hjs : jj < s.length := by
    have := List.countP_le_length (l := s.map (fun r => r.finish))
      (fun v => decide (v < x))
    simp only [List.length_map] at this
    omega
  have := sorted_countP_lt_elem hfins hjlt
  rw [fins_getD hjs] at this
  rw [List.getElem_take, ← List.getD_eq_getElem _ Region0 hjs]
  exact this

/-- One DP iteration preserves the table invariant. -/
theorem dpStep_inv {s : List Region} (hs : s.Sorted finishLE)
    {tbl : List Sequence} (hlen1 : 1 ≤ tbl.length)
    (hlen2 : tbl.length - 1 < s.length) (hinv : TblInv s tbl) :
    TblInv s (dpStep (s.map (fun r => r.finish)) tbl
      (s.getD (tbl.length - 1) Region0)) := by
  set fins := s.map (fun r => r.finish) with hfins
  set r := s.getD (tbl.length - 1) Region0 with hr
  set p := bisectLeft fins r.start 0 fins.length with hp
  have hpcount : p = fins.countP (fun v => decide (v < r.start)) := by
    rw [hp, bisectLeft_eq_countP (finishes_sorted hs)]
  have hstep : dpStep fins tbl r
      = tbl ++ [maxSeq (tbl.getD (tbl.length - 1) Sequence0)
          (seqAdd (tbl.getD p Sequence0) r)] := by
    simp [dpStep]
  -- take (tbl.length) ends with r
  have htake : s.take tbl.length = s.take (tbl.length - 1) ++ [r] := by
    conv_lhs => rw [show tbl.length = (tbl.length - 1) + 1 by omega]
    rw [List.take_succ, List.getElem?_eq_getElem hlen2]
    simp only [Option.toList_some]
    congr 1
    rw [hr, List.getD_eq_getElem _ _ hlen2]
  -- the candidate sequence satisfies the invariant at index tbl.length
  have hcand : SeqInv s tbl.length (seqAdd (tbl.getD p Sequence0) r) := by
    by_cases hplt : p < tbl.length
    · obtain ⟨hsub, hpair, hw⟩ := hinv p
      have hfinlt : ∀ a ∈ (tbl.getD p Sequence0).regs, a.finish < r.start := by
        intro a ha
        exact mem_take_countP_lt hs (by
          have := hsub.subset ha
          rwa [hpcount] at this)
      refine ⟨?_, ?_, ?_⟩
      · show ((tbl.getD p Sequence0).regs ++ [r]).Sublist (s.take tbl.length)
        rw [htake]
        exact List.Sublist.append
          (hsub.trans (take_sublist_take s (by omega))) (List.Sublist.refl _)
      · show (((tbl.getD p Sequence0).regs) ++ [r]).Pairwise compatLT
        rw [List.pairwise_append]
        exact ⟨hpair, List.pairwise_singleton _ _,
          fun a ha b hb => by
            rw [List.mem_singleton.1 hb]
            exact Or.inl (hfinlt a ha)⟩
      · show (seqAdd (tbl.getD p Sequence0) r).weight
            = sumWeights (seqAdd (tbl.getD p Sequence0) r).regs
        simp only [seqAdd, sumWeights, List.map_append, List.sum_append]
        rw [hw]
        simp [sumWeights]
    · have hd : tbl.getD p Sequence0 = Sequence0 :=
        List.getD_eq_default _ _ (by omega)
      rw [hd]
      refine ⟨?_, ?_, ?_⟩
      · show (([] : List Region) ++ [r]).Sublist (s.take tbl.length)
        rw [htake]
        exact List.Sublist.append (List.nil_sublist _) (List.Sublist.refl _)
      · exact List.pairwise_append.2
          ⟨List.Pairwise.nil, List.pairwise_singleton _ _, by simp [Sequence0]⟩
      · simp [seqAdd, Sequence0, sumWeights]
  intro j
  rcases lt_trichotomy j tbl.length with hj | hj | hj
  · rw [hstep, List.getD_append _ _ _ _ hj]
    exact hinv j
  · subst hj
    rw [hstep, getD_concat_length]
    unfold maxSeq
    by_cases hcmp : (seqAdd (tbl.getD p Sequence0) r).weight
        > (tbl.getD (tbl.length - 1) Sequence0).weight
    · rw [if_pos hcmp]
      exact hcand
    · rw [if_neg hcmp]
      obtain ⟨hsub, hpair, hw⟩ := hinv (tbl.length - 1)
      exact ⟨hsub.trans (take_sublist_take s (by omega)), hpair, hw⟩
  · rw [hstep]
    have hd : (tbl ++ [maxSeq (tbl.getD (tbl.length - 1) Sequence0)
        (seqAdd (tbl.getD p Sequence0) r)]).getD j Sequence0 = Sequence0 :=
      List.getD_eq_default _ _ (by simp; omega)
    rw [hd]
    exact seqInv_default s j

/-- The table invariant propagates through the whole DP loop. -/
theorem dpFold_inv {s : List Region} (hs : s.Sorted finishLE) :
    ∀ (suf : List Region) (tbl : List Sequence), 1 ≤ tbl.length →
      suf = s.drop (tbl.length - 1) → TblInv s tbl →
      TblInv s (suf.foldl (dpStep (s.map (fun r => r.finish))) tbl) := by
  intro suf
  induction suf with
  | nil => exact fun tbl _ _ hinv => hinv
  | cons r suf ih =>
    intro tbl hlen hsuf hinv
    rw [List.foldl_cons]
    have hlt : tbl.length - 1 < s.length := by
      by_contra hcon
      push_neg at hcon
      rw [List.drop_eq_nil_of_le hcon] at hsuf
      exact List.cons_ne_nil r suf hsuf
    have hr : r = s.getD (tbl.length - 1) Region0 := by
      have h0 : (s.drop (tbl.length - 1))[0]? = some r := by
        rw [← hsuf]
        simp
      rw [List.getElem?_drop] at h0
      rw [List.getD_eq_getElem?_getD]
      simp only [Nat.add_zero] at h0
      rw [h0]
      rfl
    have hsteplen : (dpStep (s.map (fun r => r.finish)) tbl r).length
        = tbl.length + 1 := by
      simp [dpStep]
    have hsuf' : suf
        = s.drop ((dpStep (s.map (fun r => r.finish)) tbl r).length - 1) := by
      rw [hsteplen]
      have h1 : tbl.length + 1 - 1 = (tbl.length - 1) + 1 := by omega
      rw [h1, ← List.tail_drop, ← hsuf]
      rfl
    refine ih _ (by rw [hsteplen]; omega) hsuf' ?_
    rw [hr]
    exact dpStep_inv hs hlen hlt hinv

/-- The initial table satisfies the invariant. -/
theorem tblInv_init {r0 : Region} {rest : List Region} :
    TblInv (r0 :: rest) (initTbl r0) := by
  intro j
  match j with
  | 0 => exact seqInv_default _ 0
  | 1 =>
    refine ⟨?_, List.pairwise_singleton _ _, by simp [initTbl, sumWeights]⟩
    show [r0].Sublist ((r0 :: rest).take 1)
    simp
  | (j + 2) =>
    rw [List.getD_eq_default _ _ (by simp [initTbl])]
    exact seqInv_default _ _

/-- Every entry of the DP table satisfies the invariant. -/
theorem dpGet_inv {s : List Region} (hs : s.Sorted finishLE) (i : Nat) :
    SeqInv s i (dpGet s i) := by
  match s with
  | [] =>
    show SeqInv [] i ((List.getD [] i Sequence0))
    simpa using seqInv_default [] i
  | r0 :: rest =>
    exact dpFold_inv hs rest (initTbl r0) (by simp [initTbl]) (by simp [initTbl])
      tblInv_init i

/-! ## The engine's output as the final table entry -/

theorem sortByFinish_ne_nil {routes : List Region} (hne : routes ≠ []) :
    sortByFinish routes ≠ [] := by
  intro h
  have hperm := sortByFinish_perm routes
  rw [h] at hperm
  exact hne hperm.symm.eq_nil

/-- On a nonempty block, `get_partial` returns the weight and regions of
`sequences[len(routes)]`. -/
theorem getPartial_some {routes : List Region} (hne : routes ≠ []) :
    getPartial routes
      = some ((dpGet (sortByFinish routes) ((sortByFinish routes).length)).weight,
          (dpGet (sortByFinish routes) ((sortByFinish routes).length)).regs) := by
  have hsne := sortByFinish_ne_nil hne
  unfold getPartial
  rw [if_neg (by simpa [List.isEmpty_iff] using hsne)]
  show some (((dpTbl (sortByFinish routes)).getD
        ((dpTbl (sortByFinish routes)).length - 1) Sequence0).weight,
      ((dpTbl (sortByFinish routes)).getD
        ((dpTbl (sortByFinish routes)).length - 1) Sequence0).regs) = _
  rw [dpTbl_length hsne]
  norm_num [dpGet]

/-- The reported weight is the total weight of the reported selection. -/
theorem getPartial_weight_eq_sum {routes : List Region} {w : Int}
    {sel : List Region} (h : getPartial routes = some (w, sel)) :
    w = sumWeights sel := by
  have hne : routes ≠ [] := by
    intro h0
    subst h0
    exact Option.noConfusion h
  rw [getPartial_some hne] at h
  injection h with h1
  injection h1 with hw hsel
  subst hw
  subst hsel
  exact (dpGet_inv (sortByFinish_sorted routes) _).2.2

/-- The selection reported by the engine is pairwise strictly
non-overlapping. -/
theorem getPartial_sel_pairwiseLT {routes : List Region} {w : Int}
    {sel : List Region} (h : getPartial routes = some (w, sel)) :
    sel.Pairwise compatLT := by
  have hne : routes ≠ [] := by
    intro h0
    subst h0
    exact Option.noConfusion h
  rw [getPartial_some hne] at h
  injection h with h1
  injection h1 with hw hsel
  subst hsel
  exact (dpGet_inv (sortByFinish_sorted routes) _).2.1

/-- The selection reported by the engine is a sublist of the finish-sorted
block. -/
theorem getPartial_sel_sublist {routes : List Region} {w : Int}
    {sel : List Region} (h : getPartial routes = some (w, sel)) :
    sel.Sublist (sortByFinish routes) := by
  have hne : routes ≠ [] := by
    intro h0
    subst h0
    exact Option.noConfusion h
  rw [getPartial_some hne] at h
  injection h with h1
  injection h1 with hw hsel
  subst hsel
  have := (dpGet_inv (sortByFinish_sorted routes) ((sortByFinish routes).length)).1
  rwa [List.take_length] at this

/-- C7: the weight reported by the engine equals the sum of the weights of its
reported selection, and the same holds of every `Sequence` value in the DP
table. -/
theorem c7_theorem :
    (∀ (routes : List Region) (i : Nat),
        (dpGet (sortByFinish routes) i).weight
          = sumWeights (dpGet (sortByFinish routes) i).regs) ∧
      ∀ (routes : List Region) (w : Int) (sel : List Region),
        getPartial routes = some (w, sel) → w = sumWeights sel :=
  ⟨fun routes i => (dpGet_inv (sortByFinish_sorted routes) i).2.2,
   fun _ _ _ h => getPartial_weight_eq_sum h⟩

/-- C7, witness: the engine output on the block `[(1, 1, -5)]`. -/
theorem c7_witness : (-5 : Int) = sumWeights [mkRegion 1 1 (-5)] :=
  c7_theorem.2 [mkRegion 1 1 (-5)] (-5) [mkRegion 1 1 (-5)] (by decide)

/-- C6: in the DP loop, a candidate whose weight ties `sequences[i-1]` loses —
`sequences[i]` is set to `sequences[i-1]`, because `max` keeps its first
argument unless the second is strictly greater under `Sequence.__gt__`. -/
theorem c6_theorem {routes : List Region}
    (hsf : ∀ r ∈ routes, r.start ≤ r.finish) {i : Nat} (h2 : 2 ≤ i)
    (hi : i ≤ routes.length)
    (htie : (seqAdd (dpGet (sortByFinish routes) (predIdx (sortByFinish routes) i))
        ((sortByFinish routes).getD (i - 1) Region0)).weight
      = (dpGet (sortByFinish routes) (i - 1)).weight) :
    dpGet (sortByFinish routes) i = dpGet (sortByFinish routes) (i - 1) := by
  have hs := sortByFinish_sorted routes
  have hsf' : ∀ r ∈ sortByFinish routes, r.start ≤ r.finish := fun r hr =>
    hsf r ((sortByFinish_perm routes).subset hr)
  have hlen : (sortByFinish routes).length = routes.length :=
    (sortByFinish_perm routes).length_eq
  rw [dpGet_rec hs hsf' h2 (by rw [hlen]; exact hi)]
  unfold maxSeq
  rw [if_neg (by rw [htie]; exact lt_irrefl _)]

/-- C6, witness: on the block of two identical intervals `(1, 5, 3)` the
candidate at `i = 2` ties `sequences[1]` and `sequences[2] = sequences[1]`. -/
theorem c6_witness :
    dpGet (sortByFinish [mkRegion 1 5 3, mkRegion 1 5 3]) 2
      = dpGet (sortByFinish [mkRegion 1 5 3, mkRegion 1 5 3]) 1 :=
  c6_theorem (by decide) (by decide) (by decide) (by decide)

/-- C5, amended: the predecessor index `p(i)` equals the number of intervals
among positions `1..i-1` (in finish order) whose finish is *strictly less*
than interval `i`'s start; an interval `j < i` with
`finish[j] == start[i]` is **not** counted. -/
theorem c5_amended {routes : List Region}
    (hsf : ∀ r ∈ routes, r.start ≤ r.finish) {i : Nat} (h2 : 2 ≤ i)
    (hi : i ≤ routes.length) :
    predIdx (sortByFinish routes) i
      = (((sortByFinish routes).take (i - 1)).map (fun r => r.finish)).countP
          (fun f => decide
            (f < ((sortByFinish routes).getD (i - 1) Region0).start)) := by
  have hs := sortByFinish_sorted routes
  have hsf' : ∀ r ∈ sortByFinish routes, r.start ≤ r.finish := fun r hr =>
    hsf r ((sortByFinish_perm routes).subset hr)
  have hfins := finishes_sorted hs
  have hlen : (sortByFinish routes).length = routes.length :=
    (sortByFinish_perm routes).length_eq
  have hi1 : i - 1 < (sortByFinish routes).length := by omega
  unfold predIdx
  rw [bisectLeft_eq_countP hfins]
  conv_lhs =>
    rw [← List.take_append_drop (i - 1)
      ((sortByFinish routes).map (fun r => r.finish))]
  rw [List.countP_append]
  have hdrop : (((sortByFinish routes).map (fun r => r.finish)).drop (i - 1)).countP
      (fun v => decide (v < ((sortByFinish routes).getD (i - 1) Region0).start))
      = 0 := by
    rw [List.countP_eq_zero]
    intro v hv
    obtain ⟨j, hj, rfl⟩ := List.mem_iff_getElem.1 hv
    rw [List.getElem_drop]
    have hjlen : (i - 1) + j < ((sortByFinish routes).map (fun r => r.finish)).length := by
      simp only [List.length_drop] at hj
      omega
    have hmono : ((sortByFinish routes).map (fun r => r.finish)).getD (i - 1) 0
        ≤ ((sortByFinish routes).map (fun r => r.finish)).getD ((i - 1) + j) 0 :=
      sorted_getD_mono hfins (by omega) hjlen
    have hself : ((sortByFinish routes).getD (i - 1) Region0).start
        ≤ ((sortByFinish routes).map (fun r => r.finish)).getD (i - 1) 0 := by
      rw [fins_getD hi1]
      exact hsf' _ (getD_mem hi1)
    rw [← List.getD_eq_getElem _ 0 hjlen]
    simp only [decide_eq_true_eq, not_lt]
    omega
  rw [hdrop, List.map_take]
  omega

/-- C5, witness: the amended statement on the block
`[(1, 3, 2), (2, 4, 2), (5, 6, 2)]` at `i = 3`. -/
theorem c5_witness :
    predIdx (sortByFinish [mkRegion 1 3 2, mkRegion 2 4 2, mkRegion 5 6 2]) 3
      = (((sortByFinish [mkRegion 1 3 2, mkRegion 2 4 2, mkRegion 5 6 2]).take 2).map
          (fun r => r.finish)).countP
          (fun f => decide
            (f < ((sortByFinish [mkRegion 1 3 2, mkRegion 2 4 2, mkRegion 5 6 2]).getD 2
              Region0).start)) :=
  c5_amended (by decide) (by decide) (by decide)

/-- C5, counterexample: for the block `[(1, 2, 5), (2, 3, 5)]` (already in
finish order) at `i = 2`, the predecessor index computed by `bisect_left` is
`0`, whereas the number of intervals among positions `1..i-1` whose finish is
less than *or equal to* interval `i`'s start is `1` (the first interval's
finish `2` equals the second's start `2` but is not counted). -/
theorem c5_counterexample :
    predIdx (sortByFinish [mkRegion 1 2 5, mkRegion 2 3 5]) 2 = 0 ∧
      (((sortByFinish [mkRegion 1 2 5, mkRegion 2 3 5]).take 1).map
          (fun r => r.finish)).countP
          (fun f => decide
            (f ≤ ((sortByFinish [mkRegion 1 2 5, mkRegion 2 3 5]).getD 1
              Region0).start)) = 1 := by
  constructor
  · decide
  · decide

/-! ## Optimality of the DP for nonnegative weights -/

theorem maxSeq_weight_left (a b : Sequence) : a.weight ≤ (maxSeq a b).weight := by
  unfold maxSeq
  by_cases h : b.weight > a.weight
  · rw [if_pos h]
    exact le_of_lt h
  · rw [if_neg h]

theorem maxSeq_weight_right (a b : Sequence) : b.weight ≤ (maxSeq a b).weight := by
  unfold maxSeq
  by_cases h : b.weight > a.weight
  · rw [if_pos h]
  · rw [if_neg h]
    omega

theorem compatLT_symm {a b : Region} (h : compatLT a b) : compatLT b a := h.symm

theorem sumWeights_append (a b : List Region) :
    sumWeights (a ++ b) = sumWeights a + sumWeights b := by
  simp [sumWeights]

/-- A sublist of `X ++ [e]` either avoids `e` or ends with it. -/
theorem sublist_concat_cases {α : Type} {t X : List α} {e : α}
    (h : t.Sublist (X ++ [e])) :
    t.Sublist X ∨ ∃ t2, t = t2 ++ [e] ∧ t2.Sublist X := by
  rcases List.sublist_append_iff.1 h with ⟨t1, t2, rfl, h1, h2⟩
  rcases List.sublist_cons_iff.1 h2 with h2a | ⟨t3, rfl, h3⟩
  · rw [List.sublist_nil.1 h2a]
    exact Or.inl (by simpa using h1)
  · rw [List.sublist_nil.1 h3]
    exact Or.inr ⟨t1, rfl, h1⟩

/-- A sublist of `A ++ B` whose elements all satisfy `P`, while nothing in `B`
does, is a sublist of `A`. -/
theorem sublist_drop_of_forall {α : Type} (P : α → Prop) {t A B : List α}
    (h : t.Sublist (A ++ B)) (hP : ∀ x ∈ t, P x) (hB : ∀ b ∈ B, ¬ P b) :
    t.Sublist A := by
  rcases List.sublist_append_iff.1 h with ⟨t1, t2, rfl, h1, h2⟩
  have ht2 : t2 = [] := by
    cases t2 with
    | nil => rfl
    | cons c t3 => exact absurd (hP c (by simp)) (hB c (h2.subset (by simp)))
  subst ht2
  simpa using h1

theorem take_concat_getD {s : List Region} {i : Nat} (h1 : 1 ≤ i)
    (h2 : i - 1 < s.length) :
    s.take i = s.take (i - 1) ++ [s.getD (i - 1) Region0] := by
  conv_lhs => rw [show i = (i - 1) + 1 by omega]
  rw [List.take_succ, List.getElem?_eq_getElem h2]
  simp only [Option.toList_some]
  congr 1
  rw [List.getD_eq_getElem _ _ h2]

/-- Entry `sequences[i].weight` dominates the weight of every pairwise strictly
non-overlapping sublist of the first `i` regions, when all weights are
nonnegative. -/
theorem dpGet_opt {s : List Region} (hs : s.Sorted finishLE)
    (hsf : ∀ r ∈ s, r.start ≤ r.finish) (hw : ∀ r ∈ s, 0 ≤ r.weight) :
    ∀ i, i ≤ s.length → ∀ t, t.Sublist (s.take i) → t.Pairwise compatLT →
      sumWeights t ≤ (dpGet s i).weight := by
  intro i
  induction i using Nat.strong_induction_on with
  | _ i ih =>
    intro hi t ht hpt
    match i, hi, ht with
    | 0, hi, ht =>
      have ht0 : t = [] := List.sublist_nil.1 (by simpa using ht)
      subst ht0
      rw [dpGet_zero]
      simp [sumWeights, Sequence0]
    | 1, hi, ht =>
      obtain ⟨r0, rest, rfl⟩ : ∃ r0 rest, s = r0 :: rest := by
        cases s with
        | nil => simp at hi
        | cons a tl => exact ⟨a, tl, rfl⟩
      rw [dpGet_one rfl]
      have ht1 : t.Sublist [r0] := by simpa using ht
      rcases List.sublist_cons_iff.1 ht1 with h | ⟨t2, rfl, h2⟩
      · rw [List.sublist_nil.1 h]
        show sumWeights [] ≤ r0.weight
        have := hw r0 (by simp)
        simp [sumWeights]
        omega
      · rw [List.sublist_nil.1 h2]
        show sumWeights [r0] ≤ r0.weight
        simp [sumWeights]
    | (k + 2), hi, ht =>
      have h2 : 2 ≤ k + 2 := by omega
      rw [dpGet_rec hs hsf h2 hi]
      have hi1 : k + 2 - 1 < s.length := by omega
      have htake : s.take (k + 2)
          = s.take (k + 2 - 1) ++ [s.getD (k + 2 - 1) Region0] :=
        take_concat_getD (by omega) hi1
      rw [htake] at ht
      rcases sublist_concat_cases ht with hcase | ⟨t2, rfl, ht2⟩
      · exact le_trans (ih (k + 2 - 1) (by omega) (by omega) t hcase hpt)
          (maxSeq_weight_left _ _)
      · rw [List.pairwise_append] at hpt
        obtain ⟨hp2, _, hcross⟩ := hpt
        have hfin : ∀ a ∈ t2, a.finish < (s.getD (k + 2 - 1) Region0).start := by
          intro a ha
          rcases hcross a ha (s.getD (k + 2 - 1) Region0) (List.mem_singleton.2 rfl)
            with h | h
          · exact h
          · exfalso
            obtain ⟨jj, hjj, rfl⟩ := List.mem_iff_getElem.1 (ht2.subset ha)
            have hjs : jj < s.length := by
              simp only [List.length_take] at hjj
              omega
            have hjlt : jj < k + 2 - 1 := by
              simp only [List.length_take] at hjj
              omega
            have hgt : (List.take (k + 2 - 1) s)[jj] = s[jj] := List.getElem_take s
            rw [hgt] at h
            have hle : s[jj].finish ≤ (s.getD (k + 2 - 1) Region0).finish := by
              rw [List.getD_eq_getElem _ _ hi1]
              exact List.pairwise_iff_getElem.1 hs jj (k + 2 - 1) hjs hi1 hjlt
            have hsfj : s[jj].start ≤ s[jj].finish :=
              hsf _ (List.getElem_mem hjs)
            have hsfe := hsf _ (getD_mem hi1)
            omega
        have hpcount : predIdx s (k + 2)
            = (s.map (fun r => r.finish)).countP
                (fun v => decide (v < (s.getD (k + 2 - 1) Region0).start)) := by
          unfold predIdx
          rw [bisectLeft_eq_countP (finishes_sorted hs)]
        have hple : predIdx s (k + 2) ≤ k + 2 - 1 := predIdx_le hs hsf h2 hi
        have ht2p : t2.Sublist (s.take (predIdx s (k + 2))) := by
          have hsplit : s.take (k + 2 - 1)
              = s.take (predIdx s (k + 2))
                ++ ((s.take (k + 2 - 1)).drop (predIdx s (k + 2))) := by
            conv_lhs =>
              rw [← List.take_append_drop (predIdx s (k + 2)) (s.take (k + 2 - 1))]
            rw [List.take_take, Nat.min_eq_left hple]
          rw [hsplit] at ht2
          refine sublist_drop_of_forall
            (fun a => a.finish < (s.getD (k + 2 - 1) Region0).start) ht2 hfin ?_
          intro b hb
          obtain ⟨jj, hjj, rfl⟩ := List.mem_iff_getElem.1 hb
          rw [List.getElem_drop, List.getElem_take]
          have hplen : predIdx s (k + 2) + jj < s.length := by
            simp only [List.length_drop, List.length_take] at hjj
            omega
          have hiff := sorted_lt_countP_iff (finishes_sorted hs)
            ((s.getD (k + 2 - 1) Region0).start) (predIdx s (k + 2) + jj)
            (by simpa using hplen)
          rw [fins_getD hplen] at hiff
          rw [← hpcount] at hiff
          intro hcon
          have := hiff.1 (by rwa [List.getD_eq_getElem _ _ hplen])
          omega
        have hsum2 := ih (predIdx s (k + 2)) (by omega) (by omega) t2 ht2p hp2
        rw [sumWeights_append]
        refine le_trans ?_ (maxSeq_weight_right _ _)
        show sumWeights t2 + sumWeights [s.getD (k + 2 - 1) Region0]
          ≤ (seqAdd (dpGet s (predIdx s (k + 2))) (s.getD (k + 2 - 1) Region0)).weight
        simp only [seqAdd, sumWeights, List.map_cons, List.map_nil, List.sum_cons,
          List.sum_nil]
        have hgoal : sumWeights t2 ≤ (dpGet s (predIdx s (k + 2))).weight := hsum2
        simp only [sumWeights] at hgoal
        omega

theorem init_le_foldl_max : ∀ (xs : List Int) (init : Int), init ≤ xs.foldl max init := by
  intro xs
  induction xs with
  | nil => simp
  | cons y ys ih =>
    intro init
    rw [List.foldl_cons]
    exact le_trans (le_max_left _ _) (ih _)

theorem le_foldl_max : ∀ (xs : List Int) (init x : Int), x ∈ xs → x ≤ xs.foldl max init := by
  intro xs
  induction xs with
  | nil => simp
  | cons y ys ih =>
    intro init x hx
    rw [List.foldl_cons]
    rcases List.mem_cons.1 hx with rfl | h
    · exact le_trans (le_max_right _ _) (init_le_foldl_max _ _)
    · exact ih _ x h

theorem foldl_max_le {B : Int} : ∀ (xs : List Int) (init : Int), init ≤ B →
    (∀ x ∈ xs, x ≤ B) → xs.foldl max init ≤ B := by
  intro xs
  induction xs with
  | nil =>
    intro init h _
    simpa using h
  | cons x xs ih =>
    intro init h hx
    rw [List.foldl_cons]
    exact ih _ (max_le h (hx x (by simp))) (fun y hy => hx y (by simp [hy]))

/-- C1, amended: for a nonempty block whose intervals have `start <= finish`
and nonnegative weights, the engine's weight equals the brute-force maximum,
over all subsets that are pairwise **strictly** non-overlapping
(`a.finish < b.start or b.finish < a.start`; touching intervals count as
overlapping), of the sum of the subset's weights. -/
theorem c1_amended {routes : List Region} (hne : routes ≠ [])
    (hsf : ∀ r ∈ routes, r.start ≤ r.finish)
    (hw : ∀ r ∈ routes, 0 ≤ r.weight) :
    ∃ w sel, getPartial routes = some (w, sel)
      ∧ w = bestCompatLTWeight routes := by
  refine ⟨_, _, getPartial_some hne, ?_⟩
  have hs : (sortByFinish routes).Sorted finishLE := sortByFinish_sorted routes
  have hperm := sortByFinish_perm routes
  have hsf' : ∀ r ∈ sortByFinish routes, r.start ≤ r.finish := fun r hr =>
    hsf r (hperm.subset hr)
  have hw' : ∀ r ∈ sortByFinish routes, 0 ≤ r.weight := fun r hr =>
    hw r (hperm.subset hr)
  obtain ⟨hsub, hpair, hwsum⟩ :=
    dpGet_inv hs ((sortByFinish routes).length)
  rw [List.take_length] at hsub
  apply le_antisymm
  · -- the final entry realises some admissible subset of `routes`
    have hsp : (dpGet (sortByFinish routes)
        ((sortByFinish routes).length)).regs.Subperm routes :=
      hsub.subperm.trans hperm.subperm
    obtain ⟨u, hu_perm, hu_sub⟩ := hsp
    have hu_pair : u.Pairwise compatLT :=
      (hu_perm.pairwise_iff (fun h => compatLT_symm h)).2 hpair
    have hu_sum : sumWeights u = sumWeights (dpGet (sortByFinish routes)
        ((sortByFinish routes).length)).regs := by
      unfold sumWeights
      exact (hu_perm.map (fun r => r.weight)).sum_eq
    rw [hwsum, ← hu_sum]
    refine le_foldl_max _ _ _ ?_
    refine List.mem_map.2 ⟨u, ?_, rfl⟩
    rw [List.mem_filter]
    exact ⟨List.mem_sublists.2 hu_sub, decide_eq_true hu_pair⟩
  · refine foldl_max_le _ _ ?_ ?_
    · rw [hwsum]
      unfold sumWeights
      refine List.sum_nonneg ?_
      intro x hx
      obtain ⟨a, ha, rfl⟩ := List.mem_map.1 hx
      exact hw' a (hsub.subset ha)
    · intro x hx
      obtain ⟨u, hu, rfl⟩ := List.mem_map.1 hx
      rw [List.mem_filter] at hu
      obtain ⟨husub, hupair⟩ := hu
      have husub' : u.Sublist routes := List.mem_sublists.1 husub
      have hupair' : u.Pairwise compatLT := of_decide_eq_true hupair
      obtain ⟨v, hv_perm, hv_sub⟩ :=
        husub'.subperm.trans hperm.symm.subperm
      have hv_pair : v.Pairwise compatLT :=
        (hv_perm.pairwise_iff (fun h => compatLT_symm h)).2 hupair'
      have hv_sum : sumWeights v = sumWeights u := by
        unfold sumWeights
        exact (hv_perm.map (fun r => r.weight)).sum_eq
      rw [← hv_sum]
      exact dpGet_opt hs hsf' hw' ((sortByFinish routes).length) (le_refl _) v
        (by rwa [List.take_length]) hv_pair

/-- C1, witness: the amended statement on the four-interval block
`[(1, 5, 10), (3, 8, 12), (6, 10, 8), (9, 12, 7)]`. -/
theorem c1_witness :
    ∃ w sel, getPartial [mkRegion 1 5 10, mkRegion 3 8 12, mkRegion 6 10 8,
        mkRegion 9 12 7] = some (w, sel)
      ∧ w = bestCompatLTWeight [mkRegion 1 5 10, mkRegion 3 8 12,
          mkRegion 6 10 8, mkRegion 9 12 7] :=
  c1_amended (by decide) (by decide) (by decide)

/-! ## Decomposition of the DP over strictly separated sub-blocks -/

theorem orderedInsert_append_right {α : Type} (r : α → α → Prop) [DecidableRel r]
    (a : α) :
    ∀ (X Y : List α), (∀ y ∈ Y, r a y) →
      (X ++ Y).orderedInsert r a = X.orderedInsert r a ++ Y := by
  intro X
  induction X with
  | nil =>
    intro Y hY
    cases Y with
    | nil => rfl
    | cons y Y =>
      show (y :: Y).orderedInsert r a = [a] ++ (y :: Y)
      rw [List.orderedInsert_of_le r _ (hY y (by simp))]
      rfl
  | cons b X ih =>
    intro Y hY
    show ((b :: (X ++ Y)).orderedInsert r a) = (b :: X).orderedInsert r a ++ Y
    by_cases hab : r a b
    · rw [List.orderedInsert_of_le r _ hab, List.orderedInsert_of_le r _ hab]
      rfl
    · show (if r a b then a :: b :: (X ++ Y) else b :: (X ++ Y).orderedInsert r a)
        = (if r a b then a :: b :: X else b :: X.orderedInsert r a) ++ Y
      rw [if_neg hab, if_neg hab, ih Y hY]
      rfl

/-- A stable sort of two key-separated runs is the concatenation of their
sorts. -/
theorem insertionSort_append {α : Type} (r : α → α → Prop) [DecidableRel r] :
    ∀ (A B : List α), (∀ a ∈ A, ∀ b ∈ B, r a b) →
      List.insertionSort r (A ++ B)
        = List.insertionSort r A ++ List.insertionSort r B := by
  intro A
  induction A with
  | nil => intro B _; rfl
  | cons a A ih =>
    intro B hAB
    show (List.insertionSort r (A ++ B)).orderedInsert r a = _
    rw [ih B (fun x hx b hb => hAB x (by simp [hx]) b hb)]
    rw [orderedInsert_append_right r a _ _
      (fun y hy => hAB a (by simp) y ((List.perm_insertionSort r B).subset hy))]
    rfl

theorem sortByFinish_append {A B : List Region}
    (h : ∀ a ∈ A, ∀ b ∈ B, a.finish ≤ b.finish) :
    sortByFinish (A ++ B) = sortByFinish A ++ sortByFinish B :=
  insertionSort_append finishLE A B h

theorem getD_append_plus {α : Type} (A B : List α) (t : Nat) (d : α) :
    (A ++ B).getD (A.length + t) d = B.getD t d := by
  rw [List.getD_eq_getElem?_getD, List.getD_eq_getElem?_getD,
    List.getElem?_append_right (by omega)]
  congr 2
  omega

/-- On the concatenation of two strictly separated sorted runs, the first
`|sa|` DP entries agree with the DP of the first run alone. -/
theorem dpGet_append_left {sa sb : List Region}
    (hsaS : sa.Sorted finishLE)
    (hsS : (sa ++ sb).Sorted finishLE)
    (hsf : ∀ r ∈ sa ++ sb, r.start ≤ r.finish)
    (hcross : ∀ a ∈ sa, ∀ b ∈ sb, a.finish < b.start) :
    ∀ i, i ≤ sa.length → dpGet (sa ++ sb) i = dpGet sa i := by
  have hsfa : ∀ r ∈ sa, r.start ≤ r.finish := fun r hr => hsf r (by simp [hr])
  intro i
  induction i using Nat.strong_induction_on with
  | _ i ih =>
    intro hi
    match i, hi with
    | 0, hi => rw [dpGet_zero, dpGet_zero]
    | 1, hi =>
      obtain ⟨r0, rest, rfl⟩ : ∃ r0 rest, sa = r0 :: rest := by
        cases sa with
        | nil => simp at hi
        | cons a tl => exact ⟨a, tl, rfl⟩
      rw [dpGet_one rfl, dpGet_one (List.cons_append r0 rest sb)]
    | (k + 2), hi =>
      have h2 : 2 ≤ k + 2 := by omega
      have hilen : k + 2 ≤ (sa ++ sb).length := by
        simp only [List.length_append]
        omega
      have hi1 : k + 2 - 1 < sa.length := by omega
      have hreg : (sa ++ sb).getD (k + 2 - 1) Region0
          = sa.getD (k + 2 - 1) Region0 :=
        List.getD_append _ _ _ _ hi1
      have hbzero : ((sb.map (fun r => r.finish)).countP
          (fun v => decide (v < (sa.getD (k + 2 - 1) Region0).start))) = 0 := by
        rw [List.countP_eq_zero]
        intro v hv
        obtain ⟨b, hb, rfl⟩ := List.mem_map.1 hv
        have ha := getD_mem hi1
        have h1 := hcross _ ha b hb
        have h2a := hsfa _ ha
        have h3 := hsf b (by simp [hb])
        simp only [decide_eq_true_eq, not_lt]
        omega
      have hpred : predIdx (sa ++ sb) (k + 2) = predIdx sa (k + 2) := by
        unfold predIdx
        rw [hreg, bisectLeft_eq_countP (finishes_sorted hsS),
          bisectLeft_eq_countP (finishes_sorted hsaS), List.map_append,
          List.countP_append, hbzero]
        omega
      have hple := predIdx_le hsaS hsfa h2 (by omega)
      rw [dpGet_rec hsS hsf h2 hilen, dpGet_rec hsaS hsfa h2 (by omega)]
      rw [hreg, hpred, ih (k + 2 - 1) (by omega) (by omega),
        ih (predIdx sa (k + 2)) (by omega) (by omega)]

theorem seqAppend_seqAdd (c x : Sequence) (r : Region) :
    seqAdd (seqAppend c x) r = seqAppend c (seqAdd x r) := by
  simp [seqAdd, seqAppend, Int.add_assoc]

theorem seqAppend_maxSeq (c x y : Sequence) :
    maxSeq (seqAppend c x) (seqAppend c y) = seqAppend c (maxSeq x y) := by
  unfold maxSeq seqAppend
  by_cases h : y.weight > x.weight
  · rw [if_pos h, if_pos (by simp only; omega)]
  · rw [if_neg h, if_neg (by simp only; omega)]

/-- On the concatenation of two strictly separated sorted runs, the DP entries
past the first run are the first run's final entry extended by the second
run's own DP entries, provided all weights in the second run are positive. -/
theorem dpGet_append_right {sa sb : List Region} (hsa : sa ≠ [])
    (hsaS : sa.Sorted finishLE) (hsbS : sb.Sorted finishLE)
    (hsS : (sa ++ sb).Sorted finishLE)
    (hsf : ∀ r ∈ sa ++ sb, r.start ≤ r.finish)
    (hcross : ∀ a ∈ sa, ∀ b ∈ sb, a.finish < b.start)
    (hwb : ∀ r ∈ sb, 0 < r.weight) :
    ∀ j, 1 ≤ j → j ≤ sb.length →
      dpGet (sa ++ sb) (sa.length + j)
        = seqAppend (dpGet sa sa.length) (dpGet sb j) := by
  have hsfa : ∀ r ∈ sa, r.start ≤ r.finish := fun r hr => hsf r (by simp [hr])
  have hsfb : ∀ r ∈ sb, r.start ≤ r.finish := fun r hr => hsf r (by simp [hr])
  have hm1 : 1 ≤ sa.length := by
    cases sa with
    | nil => exact absurd rfl hsa
    | cons a tl => simp
  have hleft : dpGet (sa ++ sb) sa.length = dpGet sa sa.length :=
    dpGet_append_left hsaS hsS hsf hcross sa.length (le_refl _)
  intro j
  induction j using Nat.strong_induction_on with
  | _ j ih =>
    intro hj1 hjlen
    have hjb : j - 1 < sb.length := by omega
    have hregel : (sa ++ sb).getD (sa.length + j - 1) Region0
        = sb.getD (j - 1) Region0 := by
      rw [show sa.length + j - 1 = sa.length + (j - 1) by omega]
      exact getD_append_plus sa sb (j - 1) Region0
    have hbmem := getD_mem hjb
    have hacount : ((sa.map (fun r => r.finish)).countP
        (fun v => decide (v < (sb.getD (j - 1) Region0).start)))
        = sa.length := by
      rw [show sa.length = (sa.map (fun r => r.finish)).length by simp,
        List.countP_eq_length]
      intro v hv
      obtain ⟨a, ha, rfl⟩ := List.mem_map.1 hv
      simp only [decide_eq_true_eq]
      exact hcross a ha _ hbmem
    have hpred : predIdx (sa ++ sb) (sa.length + j)
        = sa.length + predIdx sb j := by
      unfold predIdx
      rw [hregel, bisectLeft_eq_countP (finishes_sorted hsS),
        bisectLeft_eq_countP (finishes_sorted hsbS), List.map_append,
        List.countP_append, hacount]
    have hglen : sa.length + j ≤ (sa ++ sb).length := by
      simp only [List.length_append]
      omega
    have h2g : 2 ≤ sa.length + j := by omega
    have hrec := dpGet_rec hsS hsf h2g hglen
    rw [hregel, hpred] at hrec
    rw [show sa.length + j - 1 = sa.length + (j - 1) by omega] at hrec
    by_cases hj2 : j = 1
    · subst hj2
      obtain ⟨b0, sbt, rfl⟩ : ∃ b0 sbt, sb = b0 :: sbt := by
        cases sb with
        | nil => simp at hjlen
        | cons b tl => exact ⟨b, tl, rfl⟩
      have hlp : predIdx (b0 :: sbt) 1 = 0 := by
        unfold predIdx
        rw [bisectLeft_eq_countP (finishes_sorted hsbS), List.countP_eq_zero]
        intro v hv
        obtain ⟨b, hb, rfl⟩ := List.mem_map.1 hv
        simp only [Nat.sub_self, List.getD_cons_zero, decide_eq_true_eq, not_lt]
        have h1 : b0.finish ≤ b.finish := by
          rcases List.mem_cons.1 hb with rfl | hbt
          · exact le_refl _
          · exact List.rel_of_sorted_cons hsbS b hbt
        have h2 := hsfb b0 (by simp)
        omega
      rw [hlp] at hrec
      simp only [Nat.sub_self, Nat.add_zero] at hrec
      rw [hleft] at hrec
      have hb0 : (b0 :: sbt).getD 0 Region0 = b0 := List.getD_cons_zero
      rw [hb0] at hrec
      have hpick : maxSeq (dpGet sa sa.length) (seqAdd (dpGet sa sa.length) b0)
          = seqAdd (dpGet sa sa.length) b0 := by
        unfold maxSeq
        rw [if_pos]
        show (dpGet sa sa.length).weight < (dpGet sa sa.length).weight + b0.weight
        have := hwb b0 (by simp)
        omega
      rw [hrec, hpick, dpGet_one rfl]
      simp [seqAdd, seqAppend]
    · have hj2' : 2 ≤ j := by omega
      have hlpb : predIdx sb j ≤ j - 1 := predIdx_le hsbS hsfb hj2' hjlen
      have hprev := ih (j - 1) (by omega) (by omega) (by omega)
      rw [hprev] at hrec
      have hcand : seqAdd (dpGet (sa ++ sb) (sa.length + predIdx sb j))
            (sb.getD (j - 1) Region0)
          = seqAppend (dpGet sa sa.length)
            (seqAdd (dpGet sb (predIdx sb j)) (sb.getD (j - 1) Region0)) := by
        by_cases hlp0 : predIdx sb j = 0
        · rw [hlp0]
          simp only [Nat.add_zero]
          rw [hleft, dpGet_zero]
          simp [seqAdd, seqAppend, Sequence0, Int.add_assoc]
        · rw [ih (predIdx sb j) (by omega) (by omega) (by omega),
            seqAppend_seqAdd]
      rw [hcand, seqAppend_maxSeq] at hrec
      have hrecb := dpGet_rec hsbS hsfb hj2' hjlen
      rw [hrec, hrecb]

/-! ## `get_partial` over strictly separated blocks, and `resolve` per group -/

/-- Applying `get_partial` to two strictly separated nonempty sub-blocks
(all weights in the second positive) distributes: the weights add and the
selections concatenate. -/
theorem getPartial_append {A B : List Region} (hA : A ≠ []) (hB : B ≠ [])
    (hsep : ∀ a ∈ A, ∀ b ∈ B, a.finish < b.start)
    (hsf : ∀ r ∈ A ++ B, r.start ≤ r.finish)
    (hwB : ∀ r ∈ B, 0 < r.weight)
    {wa : Int} {sela : List Region} {wb : Int} {selb : List Region}
    (ha : getPartial A = some (wa, sela)) (hb : getPartial B = some (wb, selb)) :
    getPartial (A ++ B) = some (wa + wb, sela ++ selb) := by
  have hpa := sortByFinish_perm A
  have hpb := sortByFinish_perm B
  have hsfA : ∀ r ∈ A, r.start ≤ r.finish := fun r hr => hsf r (by simp [hr])
  have hsfB : ∀ r ∈ B, r.start ≤ r.finish := fun r hr => hsf r (by simp [hr])
  have hsort : sortByFinish (A ++ B) = sortByFinish A ++ sortByFinish B := by
    refine sortByFinish_append ?_
    intro a haA b hbB
    have h1 := hsep a haA b hbB
    have h2 := hsfB b hbB
    omega
  have hsa' : sortByFinish A ≠ [] := sortByFinish_ne_nil hA
  have hsb' : sortByFinish B ≠ [] := sortByFinish_ne_nil hB
  have hcross' : ∀ a ∈ sortByFinish A, ∀ b ∈ sortByFinish B, a.finish < b.start :=
    fun a haA b hbB => hsep a (hpa.subset haA) b (hpb.subset hbB)
  have hsf' : ∀ r ∈ sortByFinish A ++ sortByFinish B, r.start ≤ r.finish := by
    intro r hr
    rcases List.mem_append.1 hr with h | h
    · exact hsfA r (hpa.subset h)
    · exact hsfB r (hpb.subset h)
  have hwB' : ∀ r ∈ sortByFinish B, 0 < r.weight := fun r hr => hwB r (hpb.subset hr)
  have hsS : (sortByFinish A ++ sortByFinish B).Sorted finishLE := by
    rw [← hsort]
    exact sortByFinish_sorted (A ++ B)
  have hmain := dpGet_append_right hsa' (sortByFinish_sorted A)
    (sortByFinish_sorted B) hsS hsf' hcross' hwB' (sortByFinish B).length
    (List.length_pos.2 hsb') (le_refl _)
  have hne : A ++ B ≠ [] := by
    intro h
    exact hA (List.append_eq_nil.1 h).1
  rw [getPartial_some hA] at ha
  injection ha with ha1
  injection ha1 with hwa hsela
  rw [getPartial_some hB] at hb
  injection hb with hb1
  injection hb1 with hwb hselb
  rw [getPartial_some hne, hsort, List.length_append, hmain, ← hwa, ← hsela,
    ← hwb, ← hselb]
  simp [seqAppend]

/-- Blocks in emission order are strictly separated: everything in an earlier
block finishes before anything in a later block starts. -/
def SepChain (blocks : List (List Region)) : Prop :=
  blocks.Pairwise (fun X Y => ∀ a ∈ X, ∀ b ∈ Y, a.finish < b.start)

/-- The splitting loop produces strictly separated blocks, given the pending
invariant (`most_far` bounds every pending finish) and start-sorted input. -/
theorem blockSplitAux_sepChain :
    ∀ (rem : List Region) (cur : List Region) (mostFar : Int),
      rem.Sorted startLE → (∀ x ∈ cur, x.finish ≤ mostFar) →
      SepChain (blockSplitAux cur mostFar rem) := by
  intro rem
  induction rem with
  | nil =>
    intro cur mostFar _ _
    exact List.pairwise_singleton _ _
  | cons r rs ih =>
    intro cur mostFar hsorted hmf
    show SepChain (if cur.length > 0 ∧ r.start > mostFar then
      cur :: blockSplitAux [r] (max r.finish mostFar) rs
      else blockSplitAux (cur ++ [r]) (max r.finish mostFar) rs)
    by_cases h : cur.length > 0 ∧ r.start > mostFar
    · rw [if_pos h]
      refine List.pairwise_cons.2 ⟨?_, ih [r] (max r.finish mostFar)
        hsorted.of_cons (by simp)⟩
      intro Y hY a ha b hb
      have hbmem : b ∈ r :: rs := by
        have hjoin := blockSplitAux_join rs [r] (max r.finish mostFar)
        have : b ∈ (blockSplitAux [r] (max r.finish mostFar) rs).flatten :=
          List.mem_flatten.2 ⟨Y, hY, hb⟩
        rw [hjoin] at this
        simpa using this
      have hrb : r.start ≤ b.start := by
        rcases List.mem_cons.1 hbmem with rfl | hbt
        · exact le_refl _
        · exact List.rel_of_sorted_cons hsorted b hbt
      have := hmf a ha
      have := h.2
      omega
    · rw [if_neg h]
      refine ih (cur ++ [r]) (max r.finish mostFar) hsorted.of_cons ?_
      intro x hx
      rcases List.mem_append.1 hx with hxc | hxr
      · exact le_trans (hmf x hxc) (le_max_right _ _)
      · rw [List.mem_singleton.1 hxr]
        exact le_max_left _ _

theorem blockSplit_sepChain (g : List Region) (hg : g.Sorted startLE) :
    SepChain (blockSplit g) :=
  blockSplitAux_sepChain g [] 0 hg (by simp)

theorem flatten_ne_nil {blocks : List (List Region)} (hne : blocks ≠ [])
    (hbl : ∀ bl ∈ blocks, bl ≠ []) : blocks.flatten ≠ [] := by
  match blocks with
  | [] => exact absurd rfl hne
  | bl :: bls =>
    rw [List.flatten_cons]
    intro h
    exact hbl bl (by simp) (List.append_eq_nil.1 h).1

theorem accumBlock_none (bl : List Region) : accumBlock none bl = none := by
  unfold accumBlock
  cases getPartial bl <;> rfl

theorem foldl_accumBlock_none :
    ∀ (blocks : List (List Region)), blocks.foldl accumBlock none = none := by
  intro blocks
  induction blocks with
  | nil => rfl
  | cons b bs ihb =>
    rw [List.foldl_cons, accumBlock_none]
    exact ihb

theorem accumBlock_some {bl : List Region} {w0 wb : Int}
    {sel0 selb : List Region} (h : getPartial bl = some (wb, selb)) :
    accumBlock (some (w0, sel0)) bl = some (w0 + wb, sel0 ++ selb) := by
  unfold accumBlock
  rw [h]

/-- The per-group fold of `resolve` computes, for separated nonempty blocks
with positive weights, exactly what one `get_partial` over the concatenation
computes. -/
theorem resolveFold_some :
    ∀ (blocks : List (List Region)),
      SepChain blocks → blocks ≠ [] → (∀ bl ∈ blocks, bl ≠ []) →
      (∀ r ∈ blocks.flatten, r.start ≤ r.finish) →
      (∀ r ∈ blocks.flatten, 0 < r.weight) →
      ∀ (w0 : Int) (sel0 : List Region),
      ∃ w sel, getPartial blocks.flatten = some (w, sel) ∧
        blocks.foldl accumBlock (some (w0, sel0)) = some (w0 + w, sel0 ++ sel) := by
  intro blocks
  induction blocks with
  | nil =>
    intro _ hne
    exact absurd rfl hne
  | cons bl bls ih =>
    intro hsep hne hbl hsf hw w0 sel0
    obtain ⟨wb, selb, hbp⟩ : ∃ wb selb, getPartial bl = some (wb, selb) :=
      ⟨_, _, getPartial_some (hbl bl (by simp))⟩
    by_cases hbls : bls = []
    · subst hbls
      refine ⟨wb, selb, ?_, ?_⟩
      · rw [show (([bl] : List (List Region)).flatten) = bl by simp]
        exact hbp
      · rw [List.foldl_cons, accumBlock_some hbp]
        rfl
    · have hsep' : SepChain bls := List.Pairwise.of_cons hsep
      have hbl' : ∀ b ∈ bls, b ≠ [] := fun b hb => hbl b (by simp [hb])
      have hflat : (bl :: bls).flatten = bl ++ bls.flatten := List.flatten_cons
      have hsf' : ∀ r ∈ bls.flatten, r.start ≤ r.finish := fun r hr =>
        hsf r (by rw [hflat]; exact List.mem_append.2 (Or.inr hr))
      have hw' : ∀ r ∈ bls.flatten, 0 < r.weight := fun r hr =>
        hw r (by rw [hflat]; exact List.mem_append.2 (Or.inr hr))
      obtain ⟨wr, selr, hrp, hfold⟩ := ih hsep' hbls hbl' hsf' hw' (w0 + wb)
        (sel0 ++ selb)
      have hsepflat : ∀ a ∈ bl, ∀ b ∈ bls.flatten, a.finish < b.start := by
        intro a ha b hb
        obtain ⟨Y, hY, hbY⟩ := List.mem_flatten.1 hb
        exact (List.pairwise_cons.1 hsep).1 Y hY a ha b hbY
      have happ := getPartial_append (hbl bl (by simp))
        (flatten_ne_nil hbls hbl') hsepflat (by rw [← hflat]; exact hsf) hw'
        hbp hrp
      refine ⟨wb + wr, selb ++ selr, by rw [hflat]; exact happ, ?_⟩
      rw [List.foldl_cons, accumBlock_some hbp, hfold]
      simp [Int.add_assoc]

/-- C3, amended: for every group sorted by start whose intervals have
`start <= finish` and **strictly positive** weights, splitting into blocks and
solving each independently yields the same total weight *and the same
selection list* as solving the whole group as one block. -/
theorem c3_amended {g : List Region} (hg : g.Sorted startLE)
    (hsf : ∀ r ∈ g, r.start ≤ r.finish) (hw : ∀ r ∈ g, 0 < r.weight) :
    resolveSortedGroup g = getPartial g := by
  cases g with
  | nil => rfl
  | cons r rs =>
    have hbne := blockSplit_ne_nil (r :: rs) (List.cons_ne_nil r rs)
    have hsep := blockSplit_sepChain (r :: rs) hg
    have hjoin := blockSplit_join (r :: rs)
    have hbsne : blockSplit (r :: rs) ≠ [] := by
      intro h
      rw [h] at hjoin
      exact List.cons_ne_nil r rs hjoin.symm
    obtain ⟨w, sel, hgp, hfold⟩ := resolveFold_some (blockSplit (r :: rs)) hsep
      hbsne hbne (by rw [hjoin]; exact hsf) (by rw [hjoin]; exact hw) 0 []
    rw [hjoin] at hgp
    unfold resolveSortedGroup
    rw [hfold, hgp]
    simp

/-- C3, witness: the amended statement on the start-sorted positive-weight
group `[(1, 2, 5), (10, 11, 3)]`, which splits into two blocks. -/
theorem c3_witness :
    resolveSortedGroup [mkRegion 1 2 5, mkRegion 10 11 3]
      = getPartial [mkRegion 1 2 5, mkRegion 10 11 3] :=
  c3_amended (by decide) (by decide) (by decide)

/-- Selected regions of one block belong to that block. -/
theorem getPartial_sel_mem {bl : List Region} {w : Int} {sel : List Region}
    (h : getPartial bl = some (w, sel)) : ∀ x ∈ sel, x ∈ bl := fun _ hx =>
  (sortByFinish_perm bl).subset ((getPartial_sel_sublist h).subset hx)

/-- The concatenated group selection is pairwise non-overlapping, given
separated blocks and a compatible accumulator. -/
theorem resolveFold_pairwise :
    ∀ (blocks : List (List Region)) (w0 : Int) (sel0 : List Region) (w : Int)
      (sel : List Region),
      SepChain blocks → sel0.Pairwise compatLE →
      (∀ x ∈ sel0, ∀ bl ∈ blocks, ∀ y ∈ bl, x.finish < y.start) →
      blocks.foldl accumBlock (some (w0, sel0)) = some (w, sel) →
      sel.Pairwise compatLE := by
  intro blocks
  induction blocks with
  | nil =>
    intro w0 sel0 w sel _ hp _ h
    injection h with h1
    injection h1 with _ hsel
    exact hsel ▸ hp
  | cons bl bls ih =>
    intro w0 sel0 w sel hsep hp hcross h
    rw [List.foldl_cons] at h
    cases hbp : getPartial bl with
    | none =>
      rw [show accumBlock (some (w0, sel0)) bl = none from by
          unfold accumBlock
          rw [hbp]] at h
      rw [foldl_accumBlock_none bls] at h
      exact Option.noConfusion h
    | some v =>
      obtain ⟨wb, selb⟩ := v
      rw [accumBlock_some hbp] at h
      refine ih (w0 + wb) (sel0 ++ selb) w sel (List.Pairwise.of_cons hsep) ?_ ?_ h
      · rw [List.pairwise_append]
        refine ⟨hp, (getPartial_sel_pairwiseLT hbp).imp
          (fun hlt => hlt.imp le_of_lt le_of_lt), ?_⟩
        intro x hx y hy
        exact Or.inl (le_of_lt
          (hcross x hx bl (by simp) y (getPartial_sel_mem hbp y hy)))
      · intro x hx Y hY y hy
        rcases List.mem_append.1 hx with hx0 | hxb
        · exact hcross x hx0 Y (by simp [hY]) y hy
        · exact (List.pairwise_cons.1 hsep).1 Y hY x
            (getPartial_sel_mem hbp x hxb) y hy

theorem resolveSortedGroup_pairwise {g : List Region} (hg : g.Sorted startLE)
    {w : Int} {sel : List Region} (h : resolveSortedGroup g = some (w, sel)) :
    sel.Pairwise compatLE :=
  resolveFold_pairwise (blockSplit g) 0 [] w sel (blockSplit_sepChain g hg)
    (List.Pairwise.nil) (by simp) h

/-- C2, amended: whenever each group is genuinely sorted by start when the
`-s` flag is set (and always when it is not, since the resolver sorts), any
two distinct intervals `a`, `b` in the selected result set of a group satisfy
`a.finish <= b.start` or `b.finish <= a.start`. -/
theorem c2_amended (isSorted : Bool) {g : List Region}
    (hg : isSorted = true → g.Sorted startLE) {w : Int} {sel : List Region}
    (h : resolveGroup isSorted g = some (w, sel)) : sel.Pairwise compatLE := by
  unfold resolveGroup at h
  cases isSorted with
  | true =>
    rw [if_pos rfl] at h
    exact resolveSortedGroup_pairwise (hg rfl) h
  | false =>
    rw [if_neg (by simp)] at h
    exact resolveSortedGroup_pairwise (sortByStart_sorted g) h

/-- C2, witness: the amended statement on the unsorted two-interval group
`[(2, 100, 10), (1, 5, 1)]` processed without the `-s` flag. -/
theorem c2_witness : List.Pairwise compatLE [mkRegion 2 100 10] :=
  @c2_amended false [mkRegion 2 100 10, mkRegion 1 5 1]
    (fun hfalse => Bool.noConfusion hfalse) 10 [mkRegion 2 100 10] (by decide)

end ResolveOverlaps
